import Mathlib

/-!
Verification of the image-iptc-editor repository.

The repository has three source files:
  * `scripts/app.js` containing two browser variants (variant A: the
    `slice(0, 20)` / per-keyword write variant; variant B: the
    `slice(0, 25)` / comma-chunk write variant),
  * `server.js` (relay without a timeout),
  * an unnamed server file (relay with a 15 s `AbortController` timeout).

JavaScript strings are modelled as `List Char` (a JS string is a sequence of
UTF-16 code units; for the code-unit-level function `stringToBytes` we use
`List Nat`).  The four regular expressions used by `parseApiResponse` are
embedded by hand-compiling each literal pattern into an explicit
backtracking matcher over `List Char`, keeping JavaScript's semantics:
leftmost match, greedy `\s*` (longest first), lazy `(.+?)` (shortest
first), greedy `(.+)`, `$` = end of input (no `m` flag), `.` = any char
except a line terminator, `/i` = ASCII case folding.
-/

namespace ImageIptc

/-- JS `\s` character class (ECMAScript WhiteSpace ∪ LineTerminator). -/
def isJsSpace (c : Char) : Bool :=
  (9 ≤ c.toNat && c.toNat ≤ 13) || c.toNat == 32 || c.toNat == 160 ||
  c.toNat == 5760 || (8192 ≤ c.toNat && c.toNat ≤ 8202) ||
  c.toNat == 8232 || c.toNat == 8233 || c.toNat == 8239 ||
  c.toNat == 8287 || c.toNat == 12288 || c.toNat == 65279

/-- ECMAScript line terminators: LF, CR, LS, PS.  JS `.` matches everything
else. -/
def isLineTerm (c : Char) : Bool :=
  c.toNat == 10 || c.toNat == 13 || c.toNat == 8232 || c.toNat == 8233

/-- What JS `.` (without the `s` flag) matches. -/
def isDot (c : Char) : Bool := !isLineTerm c

/-- ASCII lower-casing on code points, the case canonicalisation relevant to
`/i` matching of the ASCII-only patterns in the source. -/
def lowerAscii (c : Char) : Nat :=
  if 65 ≤ c.toNat ∧ c.toNat ≤ 90 then c.toNat + 32 else c.toNat

/-- Case-insensitive character comparison used by the `/i` regex flag. -/
def ciEq (p c : Char) : Bool := lowerAscii p == lowerAscii c

/-- JS `String.prototype.trim`: strip `\s` characters from both ends. -/
def jsTrim (l : List Char) : List Char :=
  ((l.dropWhile isJsSpace).reverse.dropWhile isJsSpace).reverse

/-- Length of the maximal prefix of `\s` characters (the candidates a greedy
`\s*` can consume). -/
def wsRun : List Char → Nat
  | [] => 0
  | c :: r => if isJsSpace c then wsRun r + 1 else 0

/-- Length of the maximal prefix of `.`-matchable characters (what a greedy
`(.+)` consumes). -/
def dotRun : List Char → Nat
  | [] => 0
  | c :: r => if isDot c then dotRun r + 1 else 0

/-- Match a literal pattern case-insensitively at the head of the input,
returning the remainder on success. -/
def stripLitCI : List Char → List Char → Option (List Char)
  | [], s => some s
  | _ :: _, [] => none
  | p :: ps, c :: cs => if ciEq p c then stripLitCI ps cs else none

/-- The lazy group `(.+?)` followed by a context test: the shortest nonempty
prefix of `.`-matchable characters whose remainder satisfies `tailOk`. -/
def lazyGroup (tailOk : List Char → Bool) : List Char → Option (List Char)
  | [] => none
  | c :: r =>
    if isDot c then
      if tailOk r then some [c]
      else (lazyGroup tailOk r).map (c :: ·)
    else none

/-- Backtracking for a greedy `\s*` before `f`: try consuming `n` whitespace
characters first, then `n-1`, ... down to `0`. -/
def goWs (f : List Char → Option (List Char)) (t : List Char) :
    Nat → Option (List Char)
  | 0 => f t
  | n + 1 =>
    match f (t.drop (n + 1)) with
    | some r => some r
    | none => goWs f t n

/-- Greedy `\s*` (longest first, with backtracking) followed by `f`. -/
def wsThen (f : List Char → Option (List Char)) (t : List Char) :
    Option (List Char) :=
  goWs f t (wsRun t)

/-- JS leftmost-match search: try the pattern at every start position, in
order. -/
def scanWith (try_ : List Char → Option (List Char)) :
    List Char → Option (List Char)
  | [] => try_ []
  | c :: r =>
    match try_ (c :: r) with
    | some g => some g
    | none => scanWith try_ r

/-- Does the input start with the `|` delimiter? -/
def headIsBar : List Char → Bool
  | c :: _ => c == '|'
  | [] => false

/-- Context test of variant A's caption regex `(?:\s*\||$)`: either some
whitespace then a `|` (the backtracking `\s*\|` branch succeeds exactly
when the first non-whitespace character is `|`), or end of input at the
current position (`$`). -/
def tailOkCapA (v : List Char) : Bool :=
  headIsBar (v.drop (wsRun v)) || v.isEmpty

/-- Context test of variant B's caption regex `\s*(\||$)`: whitespace, then
either a `|` or end of input. -/
def tailOkCapB (v : List Char) : Bool :=
  headIsBar (v.drop (wsRun v)) || (v.drop (wsRun v)).isEmpty

/-- Context test of variant B's keywords regex tail `\s*$`: the remainder is
all whitespace. -/
def tailOkKwB (v : List Char) : Bool := v.all isJsSpace

/-- The greedy group `(.+)` of variant A's keywords regex: the maximal
nonempty prefix of `.`-matchable characters. -/
def greedyDotGroup (u : List Char) : Option (List Char) :=
  if dotRun u = 0 then none else some (u.take (dotRun u))

/-- Variant A caption regex `/CAPTION:\s*(.+?)(?:\s*\||$)/i` tried at one
position: returns group 1. -/
def tryCapA (l : List Char) : Option (List Char) :=
  (stripLitCI "CAPTION:".data l).bind (wsThen (lazyGroup tailOkCapA))

/-- Variant B caption regex `/CAPTION:\s*(.+?)\s*(\||$)/i` tried at one
position: returns group 1. -/
def tryCapB (l : List Char) : Option (List Char) :=
  (stripLitCI "CAPTION:".data l).bind (wsThen (lazyGroup tailOkCapB))

/-- Variant A keywords regex `/KEYWORDS:\s*(.+)/i` tried at one position:
returns group 1. -/
def tryKwA (l : List Char) : Option (List Char) :=
  (stripLitCI "KEYWORDS:".data l).bind (wsThen greedyDotGroup)

/-- Variant B keywords regex `/KEYWORDS:\s*(.+?)\s*$/i` tried at one
position: returns group 1. -/
def tryKwB (l : List Char) : Option (List Char) :=
  (stripLitCI "KEYWORDS:".data l).bind (wsThen (lazyGroup tailOkKwB))

/-- Does the separator regex `/\s*,\s*/` match starting at the head of `s`,
i.e. does a comma follow the whitespace run? -/
def commaAfterWs (s : List Char) : Bool :=
  match s.drop (wsRun s) with
  | ',' :: _ => true
  | _ => false

/-- Worker for JS `split(/\s*,\s*/)`, scanning left to right.  A separator
match is a (greedy) whitespace run, a comma, and a (greedy) whitespace run.
`skipping` records that we are inside the trailing whitespace run of the
separator just emitted, which the greedy `\s*` consumes entirely; a
whitespace character outside that mode belongs to a separator exactly when
a comma follows the whitespace run it starts (leftmost match), and is a
piece character otherwise. -/
def splitGo (skipping : Bool) : List Char → List Char → List (List Char)
  | [], acc => [acc]
  | c :: rest, acc =>
    if skipping && isJsSpace c then splitGo true rest acc
    else if c = ',' then acc :: splitGo true rest []
    else if isJsSpace c && commaAfterWs rest then splitGo false rest acc
    else splitGo false rest (acc ++ [c])

/-- JS `s.split(/\s*,\s*/)` as used by variant A's keyword parsing. -/
def splitWsCommaWs (s : List Char) : List (List Char) := splitGo false s []

/-- JS `s.split(sep)` for a one-character separator (variant B uses
`split(',')`). -/
def splitChar (sep : Char) : List Char → List (List Char)
  | [] => [[]]
  | c :: r =>
    if c = sep then [] :: splitChar sep r
    else
      match splitChar sep r with
      | [] => [[c]]
      | p :: ps => (c :: p) :: ps

/-- Characters of the "plain word" alphabet over which the well-formed
reply shape is quantified: not whitespace (hence not a line terminator)
and none of the structural characters `|`, `,`, `:` of the
`CAPTION: ... | KEYWORDS: ...` format. -/
def plainChar (c : Char) : Bool :=
  !isJsSpace c && !(c == '|') && !(c == ',') && !(c == ':')

/-- A model reply exactly of the form `CAPTION: X | KEYWORDS: a, b, c`. -/
def wellFormedReply (X a b c : List Char) : List Char :=
  "CAPTION: ".data ++
    (X ++ (" | KEYWORDS: ".data ++ (a ++ (',' :: ' ' :: (b ++ (',' :: ' ' :: c))))))

/-- A parsed model reply: caption and keyword list. -/
structure Parsed where
  caption : List Char
  keywords : List (List Char)
deriving DecidableEq, Repr

/-- Variant A `parseApiResponse` (app.js, first copy):
caption from `/CAPTION:\s*(.+?)(?:\s*\||$)/i` group 1 trimmed with fallback
`'No caption'`; keywords from `/KEYWORDS:\s*(.+)/i` group 1 split on
`/\s*,\s*/` with fallback `[]`. -/
def parseApiResponseA (content : List Char) : Parsed :=
  let caption :=
    match scanWith tryCapA content with
    | some g => if jsTrim g = [] then "No caption".data else jsTrim g
    | none => "No caption".data
  let keywords :=
    match scanWith tryKwA content with
    | some g => splitWsCommaWs g
    | none => []
  ⟨caption, keywords⟩

/-- Variant B `parseApiResponse` (app.js, second copy):
caption from `/CAPTION:\s*(.+?)\s*(\||$)/i` group 1 trimmed with fallback
`'No caption generated'`; keywords from `/KEYWORDS:\s*(.+?)\s*$/i` group 1
split on `','`, each piece trimmed, empty pieces dropped, fallback `[]`. -/
def parseApiResponseB (content : List Char) : Parsed :=
  let caption :=
    match scanWith tryCapB content with
    | some g => if jsTrim g = [] then "No caption generated".data else jsTrim g
    | none => "No caption generated".data
  let keywords :=
    match scanWith tryKwB content with
    | some g => ((splitChar ',' g).map jsTrim).filter (fun k => !k.isEmpty)
    | none => []
  ⟨caption, keywords⟩

/-! ## Working-metadata state operations (browser variants) -/

/-- Worker for `[...new Set(l)]`: keep the first occurrence of each element,
in insertion order (`seen` is the set built so far). -/
def dedupGo {α : Type} [DecidableEq α] : List α → List α → List α
  | [], _ => []
  | x :: xs, seen =>
    if x ∈ seen then dedupGo xs seen else x :: dedupGo xs (x :: seen)

/-- JS `[...new Set(l)]`: deduplication keeping first occurrences in order. -/
def jsSetDedup {α : Type} [DecidableEq α] (l : List α) : List α :=
  dedupGo l []

/-- Variant A `displayMetadata`: `currentKeywords = [...new Set(data.keywords)].slice(0, 20)`. -/
def displayKeywordsA (generated : List (List Char)) : List (List Char) :=
  (jsSetDedup generated).take 20

/-- Variant B `displayMetadata` keyword merge:
`[...new Set([...existing, ...generated])].slice(0, 25)`. -/
def displayKeywordsB (existing generated : List (List Char)) :
    List (List Char) :=
  (jsSetDedup (existing ++ generated)).take 25

/-- Variant B `displayMetadata` caption choice:
`captionInput.value = generatedData.caption || existingData.caption`
(a JS string is falsy exactly when it is empty). -/
def displayCaptionB (existing generated : List Char) : List Char :=
  if generated = [] then existing else generated

/-- `addKeyword` (identical in both variants): trim the input; push it only
when it is nonempty and not already present (`includes` is exact string
equality). -/
def addKeyword (ks : List (List Char)) (input : List Char) :
    List (List Char) :=
  let kw := jsTrim input
  if kw ≠ [] ∧ kw ∉ ks then ks ++ [kw] else ks

/-- Keyword removal by position, `currentKeywords.splice(i, 1)` in the
delete handler of `renderKeywords` (both variants). -/
def removeKeyword : List (List Char) → Nat → List (List Char)
  | [], _ => []
  | _ :: xs, 0 => xs
  | x :: xs, n + 1 => x :: removeKeyword xs n

/-- `renderKeywords` (both variants): one tag per element of
`currentKeywords`, labelled with the keyword and its index — the whole list
is displayed, with no truncation. -/
def renderKeywords (ks : List (List Char)) : List (List Char × Nat) :=
  ks.enum.map (fun p => (p.2, p.1))

/-- Variant A `saveAndDownload` keyword write:
`currentKeywords.slice(0, 20).forEach((kw, i) => ... kw.substring(0, 64))` —
the IPTC field values written, one per keyword. -/
def writeKeywordsA (ks : List (List Char)) : List (List Char) :=
  (ks.take 20).map (fun kw => kw.take 64)

/-- Chunks of at most `n` elements, in order (worker for variant B's
keyword write loop). -/
def chunksOf {α : Type} : Nat → List α → List (List α)
  | _, [] => []
  | 0, _ :: _ => []
  | m + 1, x :: xs =>
    (x :: xs).take (m + 1) :: chunksOf (m + 1) ((x :: xs).drop (m + 1))
termination_by _ l => l.length
decreasing_by
  simp only [List.drop, List.length_drop, List.length_cons]
  omega

/-- JS `Array.prototype.join(',')` on a list of strings. -/
def joinComma : List (List Char) → List Char
  | [] => []
  | [p] => p
  | p :: q :: rest => p ++ ',' :: joinComma (q :: rest)

/-- Variant B `saveAndDownload` keyword write: the loop writes
`currentKeywords.slice(i, i+16).join(',')` for `i = 0, 16, 32, …` — every
current keyword is written, in comma-joined chunks of 16, with no cap. -/
def writeKeywordsB (ks : List (List Char)) : List (List Char) :=
  (chunksOf 16 ks).map joinComma

/-- `stringToBytes` (identical in both variants): for each UTF-16 code unit
of the string, push the code unit and then a `0` byte.  The JS string is
modelled as its list of UTF-16 code units. -/
def stringToBytes : List Nat → List Nat
  | [] => []
  | u :: rest => u :: 0 :: stringToBytes rest

/-- Does a case-insensitive occurrence of `pat` start at some position of
the input?  This mirrors the position scan of JS `String.prototype.match`
for the literal part of the patterns. -/
def occursCI (pat : List Char) : List Char → Bool
  | [] => (stripLitCI pat []).isSome
  | c :: r => (stripLitCI pat (c :: r)).isSome || occursCI pat r

/-- The seen-set accumulated by `dedupGo` after processing a list
(specification helper for reasoning about `jsSetDedup`). -/
def seenAfter {α : Type} [DecidableEq α] : List α → List α → List α
  | [], seen => seen
  | x :: xs, seen => seenAfter xs (if x ∈ seen then seen else x :: seen)

/-! ## Relay endpoint models -/

/-- Upstream fetch outcome for `server.js`, which installs no
`AbortController`: a response, or a network failure. -/
inductive FetchResult1 where
  /-- The upstream responded with the given HTTP status and (JSON) body. -/
  | ok (status : Nat) (body : String)
  /-- A network failure, with its `error.message`. -/
  | netError (msg : String)
deriving DecidableEq, Repr

/-- Upstream fetch outcome for the timeout variant. -/
inductive FetchResult where
  /-- The upstream responded with the given HTTP status and (JSON) body. -/
  | ok (status : Nat) (body : String)
  /-- The fetch was aborted by the 15 s timeout
  (`error.name === 'AbortError'`). -/
  | abortError
  /-- Any other network failure, with its `error.message`. -/
  | netError (msg : String)
deriving DecidableEq, Repr

/-- Body of a relay response: either the upstream JSON body passed through,
or an `{ error: string }` object. -/
inductive RelayBody where
  | passthrough (json : String)
  | errorObj (msg : String)
deriving DecidableEq, Repr

/-- A relay HTTP response: status code and body. -/
structure RelayReply where
  status : Nat
  body : RelayBody
deriving DecidableEq, Repr

/-- `server.js` handler (variant without timeout): on `response.ok`
(status 200–299) pass the JSON body through with status 200; otherwise
`throw new Error('API error: <status> - <text>')`, which the catch block
turns into status 500 with `{ error: message }`; a network failure is also
caught into status 500. -/
def relayV1 : FetchResult1 → RelayReply
  | .ok status body =>
    if 200 ≤ status ∧ status ≤ 299 then
      ⟨200, .passthrough body⟩
    else
      ⟨500, .errorObj ("API error: " ++ toString status ++ " - " ++ body)⟩
  | .netError msg => ⟨500, .errorObj msg⟩

/-- The unnamed server file's handler (timeout variant): on `response.ok`
pass the JSON body through with status 200; on a non-2xx upstream status
respond 502 with `{ error: 'Upstream error: <status>' }`; in the catch
block respond 500 with `{ error: 'Request timeout' }` when the failure is
the `AbortError` raised by the 15 s timeout, and with the error message
otherwise. -/
def relayV2 : FetchResult → RelayReply
  | .ok status body =>
    if 200 ≤ status ∧ status ≤ 299 then
      ⟨200, .passthrough body⟩
    else
      ⟨502, .errorObj ("Upstream error: " ++ toString status)⟩
  | .abortError => ⟨500, .errorObj "Request timeout"⟩
  | .netError msg => ⟨500, .errorObj msg⟩

/-! ## Simple state-operation lemmas -/

/-- `removeKeyword` is deletion at a position: the prefix before the index
is kept and everything after it shifts down by one. -/
theorem removeKeyword_eq_take_drop (ks : List (List Char)) (i : Nat)
    (h : i < ks.length) :
    removeKeyword ks i = ks.take i ++ ks.drop (i + 1) := by
  induction ks generalizing i with
  | nil => simp at h
  | cons x xs ih =>
    cases i with
    | zero => simp [removeKeyword]
    | succ k =>
      have hk : k < xs.length := by simpa using h
      simp [removeKeyword, ih k hk]

/-- C8: for every keyword list and every valid index `i`, removal by
position deletes exactly the element at `i` and shifts all later elements
down by one; in particular removing index 1 from `["a","b","c"]` yields
`["a","c"]`. -/
theorem removeKeyword_spec :
    (∀ (ks : List (List Char)) (i : Nat), i < ks.length →
      removeKeyword ks i = ks.take i ++ ks.drop (i + 1) ∧
      (removeKeyword ks i).length = ks.length - 1) ∧
    removeKeyword ["a".data, "b".data, "c".data] 1 =
      ["a".data, "c".data] := by
  refine ⟨fun ks i h => ⟨removeKeyword_eq_take_drop ks i h, ?_⟩, by decide⟩
  rw [removeKeyword_eq_take_drop ks i h]
  simp only [List.length_append, List.length_take, List.length_drop]
  omega

/-- Witness for `removeKeyword_spec` at a concrete list and index. -/
theorem removeKeyword_spec_witness :
    removeKeyword ["x".data, "y".data] 0 =
      ["x".data, "y".data].take 0 ++ ["x".data, "y".data].drop 1 :=
  (removeKeyword_spec.1 ["x".data, "y".data] 0 (by decide)).1

/-- C7: `addKeyword` is a no-op when the trimmed candidate is blank or
already present (case-sensitive exact match), and otherwise appends exactly
the trimmed candidate. -/
theorem addKeyword_spec (ks : List (List Char)) (input : List Char) :
    (jsTrim input = [] → addKeyword ks input = ks) ∧
    (jsTrim input ∈ ks → addKeyword ks input = ks) ∧
    (jsTrim input ≠ [] → jsTrim input ∉ ks →
      addKeyword ks input = ks ++ [jsTrim input]) := by
  refine ⟨fun h => ?_, fun h => ?_, fun h1 h2 => ?_⟩
  · simp [addKeyword, h]
  · simp [addKeyword, h]
  · simp [addKeyword, h1, h2]

/-- Witness for `addKeyword_spec`: blank input, duplicate input, and a
genuinely new keyword, on concrete lists. -/
theorem addKeyword_spec_witness :
    addKeyword [['a']] "  ".data = [['a']] ∧
    addKeyword [['a']] " a ".data = [['a']] ∧
    addKeyword [['a']] "b".data = [['a'], ['b']] :=
  ⟨(addKeyword_spec [['a']] "  ".data).1 (by decide),
   (addKeyword_spec [['a']] " a ".data).2.1 (by decide),
   by
     have h := (addKeyword_spec [['a']] "b".data).2.2 (by decide) (by decide)
     simpa using h⟩

/-- C10: `stringToBytes` doubles the length, puts the UTF-16 code unit of
index `i` at position `2*i`, and a `0` at every odd position. -/
theorem stringToBytes_spec (u : List Nat) :
    (stringToBytes u).length = 2 * u.length ∧
    ∀ i, i < u.length →
      (stringToBytes u)[2 * i]? = u[i]? ∧
      (stringToBytes u)[2 * i + 1]? = some 0 := by
  constructor
  · induction u with
    | nil => rfl
    | cons c r ih =>
      simp only [stringToBytes, List.length_cons, ih]
      ring
  · intro i hi
    induction u generalizing i with
    | nil => simp at hi
    | cons c r ih =>
      cases i with
      | zero => simp [stringToBytes]
      | succ k =>
        have hk : k < r.length := by simpa using hi
        have h2 : 2 * (k + 1) = 2 * k + 1 + 1 := by ring
        rw [h2]
        simpa [stringToBytes] using ih k hk

/-- Witness for `stringToBytes_spec` on a concrete code-unit sequence. -/
theorem stringToBytes_spec_witness :
    (stringToBytes [72, 105]).length = 2 * 2 ∧
    (stringToBytes [72, 105])[2 * 1]? = [72, 105][1]? ∧
    (stringToBytes [72, 105])[2 * 1 + 1]? = some 0 :=
  ⟨(stringToBytes_spec [72, 105]).1,
   ((stringToBytes_spec [72, 105]).2 1 (by decide)).1,
   ((stringToBytes_spec [72, 105]).2 1 (by decide)).2⟩

/-! ## Relay claims -/

/-- C2 counterexample: in the `server.js` variant an upstream non-2xx
status (here 401) is answered with status 500, not 502 — the thrown
`API error` lands in the generic catch block. -/
theorem relay_counterexample :
    relayV1 (.ok 401 "unauthorized") =
      ⟨500, .errorObj "API error: 401 - unauthorized"⟩ ∧
    (relayV1 (.ok 401 "unauthorized")).status ≠ 502 := by
  constructor
  · rfl
  · decide

/-- C2 amended: both relay variants pass the upstream JSON body through on
a 2xx status; on a non-2xx upstream status the timeout variant responds
502 with `{ error }` while the `server.js` variant responds 500 with
`{ error }`; network failures map to 500 in both, and the timeout variant
answers the abort of its 15 s timer with the dedicated
`'Request timeout'` message. -/
theorem relay_amended :
    (∀ st b, 200 ≤ st → st ≤ 299 →
      relayV1 (.ok st b) = ⟨200, .passthrough b⟩ ∧
      relayV2 (.ok st b) = ⟨200, .passthrough b⟩) ∧
    (∀ st b, ¬(200 ≤ st ∧ st ≤ 299) →
      relayV1 (.ok st b) =
        ⟨500, .errorObj ("API error: " ++ toString st ++ " - " ++ b)⟩ ∧
      relayV2 (.ok st b) =
        ⟨502, .errorObj ("Upstream error: " ++ toString st)⟩) ∧
    relayV2 .abortError = ⟨500, .errorObj "Request timeout"⟩ ∧
    (∀ m, relayV1 (.netError m) = ⟨500, .errorObj m⟩ ∧
      relayV2 (.netError m) = ⟨500, .errorObj m⟩) := by
  refine ⟨fun st b h1 h2 => ?_, fun st b h => ?_, rfl, fun m => ⟨rfl, rfl⟩⟩
  · constructor <;> simp [relayV1, relayV2, h1, h2]
  · constructor <;> simp [relayV1, relayV2, h]

/-- Witness for `relay_amended`: a 200 passthrough and a 404 upstream
error, at concrete statuses and bodies. -/
theorem relay_amended_witness :
    relayV1 (.ok 200 "j") = ⟨200, .passthrough "j"⟩ ∧
    relayV2 (.ok 404 "x") = ⟨502, .errorObj ("Upstream error: " ++ toString 404)⟩ :=
  ⟨(relay_amended.1 200 "j" (by decide) (by decide)).1,
   (relay_amended.2.1 404 "x" (by decide)).2⟩

/-! ## Deduplication lemmas -/

theorem mem_dedupGo_not_seen {α : Type} [DecidableEq α] :
    ∀ (l seen : List α) (y : α), y ∈ dedupGo l seen → y ∉ seen := by
  intro l
  induction l with
  | nil => intro seen y hy; simp [dedupGo] at hy
  | cons x xs ih =>
    intro seen y hy
    by_cases hx : x ∈ seen
    · exact ih seen y (by simpa [dedupGo, hx] using hy)
    · rcases (by simpa [dedupGo, hx] using hy : y = x ∨ y ∈ dedupGo xs (x :: seen)) with
        rfl | hmem
      · exact hx
      · intro hseen
        exact ih (x :: seen) y hmem (List.mem_cons_of_mem x hseen)

theorem dedupGo_nodup {α : Type} [DecidableEq α] :
    ∀ (l seen : List α), (dedupGo l seen).Nodup := by
  intro l
  induction l with
  | nil => intro seen; simp [dedupGo]
  | cons x xs ih =>
    intro seen
    by_cases hx : x ∈ seen
    · simpa [dedupGo, hx] using ih seen
    · have hnotin : x ∉ dedupGo xs (x :: seen) := fun hmem =>
        mem_dedupGo_not_seen xs (x :: seen) x hmem (List.mem_cons_self x seen)
      simpa [dedupGo, hx] using ⟨hnotin, ih (x :: seen)⟩

/-- `jsSetDedup` never produces duplicates. -/
theorem jsSetDedup_nodup {α : Type} [DecidableEq α] (l : List α) :
    (jsSetDedup l).Nodup := dedupGo_nodup l []

theorem dedupGo_eq_self {α : Type} [DecidableEq α] :
    ∀ (l seen : List α), l.Nodup → (∀ x ∈ l, x ∉ seen) →
      dedupGo l seen = l := by
  intro l
  induction l with
  | nil => intro seen _ _; rfl
  | cons x xs ih =>
    intro seen hnd hsub
    have hx : x ∉ seen := hsub x (List.mem_cons_self x xs)
    have hxxs : x ∉ xs := (List.nodup_cons.mp hnd).1
    have : dedupGo xs (x :: seen) = xs := by
      refine ih (x :: seen) (List.nodup_cons.mp hnd).2 (fun y hy => ?_)
      intro hy2
      rcases List.mem_cons.mp hy2 with rfl | hy3
      · exact hxxs hy
      · exact hsub y (List.mem_cons_of_mem x hy) hy3
    simp [dedupGo, hx, this]

/-- Deduplicating an already duplicate-free list is the identity. -/
theorem jsSetDedup_eq_self {α : Type} [DecidableEq α] (l : List α)
    (h : l.Nodup) : jsSetDedup l = l :=
  dedupGo_eq_self l [] h (by simp)

theorem dedupGo_append {α : Type} [DecidableEq α] :
    ∀ (l l' seen : List α),
      dedupGo (l ++ l') seen = dedupGo l seen ++ dedupGo l' (seenAfter l seen) := by
  intro l
  induction l with
  | nil => intro l' seen; rfl
  | cons x xs ih =>
    intro l' seen
    by_cases hx : x ∈ seen <;> simp [dedupGo, seenAfter, hx, ih]

theorem subset_seenAfter {α : Type} [DecidableEq α] :
    ∀ (l seen : List α), seen ⊆ seenAfter l seen := by
  intro l
  induction l with
  | nil => intro seen y hy; exact hy
  | cons x xs ih =>
    intro seen y hy
    by_cases hx : x ∈ seen
    · simpa [seenAfter, hx] using ih seen hy
    · exact (by simpa [seenAfter, hx] using ih (x :: seen) (List.mem_cons_of_mem x hy))

theorem mem_seenAfter_of_mem {α : Type} [DecidableEq α] :
    ∀ (l seen : List α) (y : α), y ∈ l → y ∈ seenAfter l seen := by
  intro l
  induction l with
  | nil => intro seen y hy; simp at hy
  | cons x xs ih =>
    intro seen y hy
    rcases List.mem_cons.mp hy with rfl | hy2
    · by_cases hx : y ∈ seen
      · simpa [seenAfter, hx] using subset_seenAfter xs seen hx
      · simpa [seenAfter, hx] using
          subset_seenAfter xs (y :: seen) (List.mem_cons_self y seen)
    · by_cases hx : x ∈ seen <;> simpa [seenAfter, hx] using ih _ y hy2

theorem dedupGo_eq_nil_of_seen {α : Type} [DecidableEq α] :
    ∀ (l seen : List α), (∀ x ∈ l, x ∈ seen) → dedupGo l seen = [] := by
  intro l
  induction l with
  | nil => intro seen _; rfl
  | cons x xs ih =>
    intro seen h
    have hx : x ∈ seen := h x (List.mem_cons_self x xs)
    simp [dedupGo, hx, ih seen (fun y hy => h y (List.mem_cons_of_mem x hy))]

/-- Deduplicating a list appended to itself equals deduplicating it once:
the second pass contributes nothing. -/
theorem jsSetDedup_append_self {α : Type} [DecidableEq α] (l : List α) :
    jsSetDedup (l ++ l) = jsSetDedup l := by
  unfold jsSetDedup
  rw [dedupGo_append]
  rw [dedupGo_eq_nil_of_seen l (seenAfter l [])
    (fun x hx => mem_seenAfter_of_mem l [] x hx)]
  simp

/-! ## C4: keyword-merge idempotence -/

/-- C4 counterexample: merging the two-element list `["a","a"]` with itself
yields `["a"]`, not the list itself — the claim fails for inputs that
already contain duplicates. -/
theorem merge_self_counterexample :
    displayKeywordsB [['a'], ['a']] [['a'], ['a']] = [['a']] ∧
    displayKeywordsB [['a'], ['a']] [['a'], ['a']] ≠ [['a'], ['a']] := by
  decide

/-- C4 amended: merging a duplicate-free keyword list of length at most the
cap with itself yields the list itself (in particular any output of the
merge is such a list), and for arbitrary inputs the merge result is
duplicate-free and never exceeds the cap (25 in the merging variant, 20 in
the other variant's dedup-and-cap). -/
theorem merge_idempotent_amended :
    (∀ ks : List (List Char), ks.Nodup → ks.length ≤ 25 →
      displayKeywordsB ks ks = ks) ∧
    (∀ ks : List (List Char), ks.Nodup → ks.length ≤ 20 →
      displayKeywordsA ks = ks) ∧
    (∀ ex gen : List (List Char),
      (displayKeywordsB ex gen).Nodup ∧ (displayKeywordsB ex gen).length ≤ 25) ∧
    (∀ gen : List (List Char),
      (displayKeywordsA gen).Nodup ∧ (displayKeywordsA gen).length ≤ 20) := by
  refine ⟨fun ks hnd hlen => ?_, fun ks hnd hlen => ?_,
    fun ex gen => ⟨?_, ?_⟩, fun gen => ⟨?_, ?_⟩⟩
  · unfold displayKeywordsB
    rw [jsSetDedup_append_self, jsSetDedup_eq_self ks hnd,
      List.take_of_length_le hlen]
  · unfold displayKeywordsA
    rw [jsSetDedup_eq_self ks hnd, List.take_of_length_le hlen]
  · exact (jsSetDedup_nodup (ex ++ gen)).sublist (List.take_sublist 25 _)
  · exact List.length_take_le 25 _
  · exact (jsSetDedup_nodup gen).sublist (List.take_sublist 20 _)
  · exact List.length_take_le 20 _

/-- Witness for `merge_idempotent_amended` on a concrete duplicate-free
list within the cap. -/
theorem merge_idempotent_amended_witness :
    displayKeywordsB [['a'], ['b']] [['a'], ['b']] = [['a'], ['b']] :=
  merge_idempotent_amended.1 [['a'], ['b']] (by decide) (by decide)

/-! ## C3: working-list invariants -/

/-- C3 counterexample: starting from the 20-keyword state built by variant
A's `displayMetadata`, one `addKeyword` produces 21 keywords and
`renderKeywords` displays all of them — the list shown is not truncated to
the cap of 20. -/
theorem keywords_cap_counterexample :
    ¬ ((renderKeywords (addKeyword
        (displayKeywordsA ((List.range 20).map (fun i => [Char.ofNat (97 + i)])))
        ['z'])).length ≤ 20) := by
  decide

/-- Every chunk produced by variant B's write loop, concatenated back,
gives exactly the current keyword list: nothing is truncated. -/
theorem chunksOf_flatten {α : Type} (n : Nat) (l : List α) :
    (chunksOf (n + 1) l).flatten = l := by
  have key : ∀ (k : Nat) (l : List α), l.length ≤ k →
      (chunksOf (n + 1) l).flatten = l := by
    intro k
    induction k with
    | zero =>
      intro l hl
      have : l = [] := List.length_eq_zero.mp (Nat.le_zero.mp hl)
      subst this
      simp [chunksOf]
    | succ k ih =>
      intro l hl
      cases l with
      | nil => simp [chunksOf]
      | cons x xs =>
        rw [chunksOf]
        rw [List.flatten_cons]
        rw [ih ((x :: xs).drop (n + 1)) (by simp at hl ⊢; omega)]
        exact List.take_append_drop (n + 1) (x :: xs)
  exact key l.length l (Nat.le_refl _)

/-- `removeKeyword` only ever deletes elements. -/
theorem removeKeyword_sublist :
    ∀ (ks : List (List Char)) (i : Nat),
      List.Sublist (removeKeyword ks i) ks := by
  intro ks
  induction ks with
  | nil => intro i; simp [removeKeyword]
  | cons x xs ih =>
    intro i
    cases i with
    | zero => exact List.sublist_cons_self x xs
    | succ k => exact (ih k).cons₂ x

/-- C3 amended: the no-duplicates invariant holds after every operation
(`displayMetadata`, `addKeyword`, removal by position), and
`displayMetadata` truncates to the cap (20 or 25) when it builds the
state; but `renderKeywords` displays the whole current list and variant
B's write emits every current keyword in chunks of 16, so after
`addKeyword` the displayed and (in variant B) written lists may exceed the
cap — only variant A's write truncates, to 20 entries. -/
theorem keywords_invariants_amended :
    (∀ (ks : List (List Char)) (input : List Char),
      ks.Nodup → (addKeyword ks input).Nodup) ∧
    (∀ (ks : List (List Char)) (i : Nat),
      ks.Nodup → (removeKeyword ks i).Nodup) ∧
    (∀ gen : List (List Char),
      (displayKeywordsA gen).Nodup ∧ (displayKeywordsA gen).length ≤ 20) ∧
    (∀ ex gen : List (List Char),
      (displayKeywordsB ex gen).Nodup ∧ (displayKeywordsB ex gen).length ≤ 25) ∧
    (∀ ks : List (List Char), (writeKeywordsA ks).length ≤ 20) ∧
    (∀ ks : List (List Char), (chunksOf 16 ks).flatten = ks) ∧
    (∀ ks : List (List Char), (renderKeywords ks).length = ks.length) := by
  refine ⟨fun ks input hnd => ?_, fun ks i hnd => ?_,
    fun gen => ⟨?_, ?_⟩, fun ex gen => ⟨?_, ?_⟩, fun ks => ?_, fun ks => ?_,
    fun ks => ?_⟩
  · by_cases h : jsTrim input ≠ [] ∧ jsTrim input ∉ ks
    · simp [addKeyword, h, List.nodup_append, hnd, h.2]
    · simp [addKeyword, h, hnd]
  · exact hnd.sublist (removeKeyword_sublist ks i)
  · exact (jsSetDedup_nodup gen).sublist (List.take_sublist 20 _)
  · exact List.length_take_le 20 _
  · exact (jsSetDedup_nodup (ex ++ gen)).sublist (List.take_sublist 25 _)
  · exact List.length_take_le 25 _
  · simp only [writeKeywordsA, List.length_map]
    exact List.length_take_le 20 ks
  · exact chunksOf_flatten 15 ks
  · simp [renderKeywords]

/-- Witness for `keywords_invariants_amended` on a concrete state. -/
theorem keywords_invariants_amended_witness :
    (addKeyword [['a']] "b".data).Nodup :=
  keywords_invariants_amended.1 [['a']] "b".data (by decide)

/-! ## C5 and C9: caption results -/

/-- Variant A's parser never returns an empty caption. -/
theorem parseA_caption_ne_nil (s : List Char) :
    (parseApiResponseA s).caption ≠ [] := by
  unfold parseApiResponseA
  cases h : scanWith tryCapA s with
  | none => simp [h]
  | some g =>
    simp only [h]
    split
    · decide
    · rename_i hne
      simpa using hne

/-- Variant B's parser never returns an empty caption. -/
theorem parseB_caption_ne_nil (s : List Char) :
    (parseApiResponseB s).caption ≠ [] := by
  unfold parseApiResponseB
  cases h : scanWith tryCapB s with
  | none => simp [h]
  | some g =>
    simp only [h]
    split
    · decide
    · rename_i hne
      simpa using hne

/-- C9: on every input the parser's caption is nonempty — the trimmed
match of the `CAPTION:` group when that trim is nonempty, the fixed
placeholder otherwise. -/
theorem parse_caption_nonempty (s : List Char) :
    (parseApiResponseA s).caption ≠ [] ∧
    (parseApiResponseB s).caption ≠ [] ∧
    ((parseApiResponseA s).caption = "No caption".data ∨
      ∃ g, scanWith tryCapA s = some g ∧ jsTrim g ≠ [] ∧
        (parseApiResponseA s).caption = jsTrim g) ∧
    ((parseApiResponseB s).caption = "No caption generated".data ∨
      ∃ g, scanWith tryCapB s = some g ∧ jsTrim g ≠ [] ∧
        (parseApiResponseB s).caption = jsTrim g) := by
  refine ⟨parseA_caption_ne_nil s, parseB_caption_ne_nil s, ?_, ?_⟩
  · unfold parseApiResponseA
    cases h : scanWith tryCapA s with
    | none => simp [h]
    | some g =>
      by_cases ht : jsTrim g = []
      · simp [h, ht]
      · refine Or.inr ⟨g, rfl, ht, ?_⟩
        simp [ht]
  · unfold parseApiResponseB
    cases h : scanWith tryCapB s with
    | none => simp [h]
    | some g =>
      by_cases ht : jsTrim g = []
      · simp [h, ht]
      · refine Or.inr ⟨g, rfl, ht, ?_⟩
        simp [ht]

/-- C5 counterexample: for a model reply with no `CAPTION:` marker
("generation produced none") and a nonempty pre-existing caption, the
displayed caption is the parser's placeholder, not the pre-existing
caption — the `generated || existing` fallback never fires because the
parser's caption is always truthy. -/
theorem caption_fallback_counterexample :
    occursCI "CAPTION:".data "a photo of a dog".data = false ∧
    displayCaptionB "old caption".data
        (parseApiResponseB "a photo of a dog".data).caption ≠
      "old caption".data := by
  decide

/-- C5 amended: the displayed caption always equals the parser's caption
(the parsed value when the reply yields one, the placeholder otherwise);
the fallback to the pre-existing caption in `displayMetadata` is dead code
because the parser never returns an empty caption. -/
theorem caption_choice_amended (existing reply : List Char) :
    displayCaptionB existing (parseApiResponseB reply).caption =
      (parseApiResponseB reply).caption := by
  unfold displayCaptionB
  simp [parseB_caption_ne_nil reply]

/-! ## C6: replies without a `KEYWORDS:` marker -/

/-- If the literal pattern occurs nowhere (case-insensitively), the
position scan of any regex starting with that literal fails. -/
theorem scanWith_bind_none (pat : List Char)
    (k : List Char → Option (List Char)) :
    ∀ s : List Char, occursCI pat s = false →
      scanWith (fun l => (stripLitCI pat l).bind k) s = none := by
  intro s
  induction s with
  | nil =>
    intro h
    simp only [occursCI, Option.isSome] at h
    cases hs : stripLitCI pat [] with
    | none => simp [scanWith, hs]
    | some r => rw [hs] at h; simp at h
  | cons c rest ih =>
    intro h
    simp only [occursCI, Bool.or_eq_false_iff] at h
    obtain ⟨h1, h2⟩ := h
    cases hs : stripLitCI pat (c :: rest) with
    | none => simp [scanWith, hs, ih h2]
    | some r => rw [hs] at h1; simp at h1

/-- C6: for a reply containing no `KEYWORDS:` marker, both parsers return
an empty keyword list together with the caption extracted from the
`CAPTION:` marker — whenever the caption regex matches with group `g`, the
caption is the trimmed group (the placeholder if that trim is empty) — and
the placeholder caption when the `CAPTION:` marker is also absent. -/
theorem parse_no_keywords_marker (s : List Char)
    (hk : occursCI "KEYWORDS:".data s = false) :
    (parseApiResponseA s).keywords = [] ∧
    (parseApiResponseB s).keywords = [] ∧
    (∀ g, scanWith tryCapA s = some g →
      (parseApiResponseA s).caption =
        (if jsTrim g = [] then "No caption".data else jsTrim g)) ∧
    (∀ g, scanWith tryCapB s = some g →
      (parseApiResponseB s).caption =
        (if jsTrim g = [] then "No caption generated".data else jsTrim g)) ∧
    (occursCI "CAPTION:".data s = false →
      (parseApiResponseA s).caption = "No caption".data ∧
      (parseApiResponseB s).caption = "No caption generated".data) := by
  refine ⟨?_, ?_, fun g hg => ?_, fun g hg => ?_, fun hc => ⟨?_, ?_⟩⟩
  · have h := scanWith_bind_none "KEYWORDS:".data (wsThen greedyDotGroup) s hk
    unfold parseApiResponseA
    rw [show scanWith tryKwA s = none from h]
  · have h := scanWith_bind_none "KEYWORDS:".data (wsThen (lazyGroup tailOkKwB)) s hk
    unfold parseApiResponseB
    rw [show scanWith tryKwB s = none from h]
  · unfold parseApiResponseA
    rw [hg]
  · unfold parseApiResponseB
    rw [hg]
  · have h := scanWith_bind_none "CAPTION:".data (wsThen (lazyGroup tailOkCapA)) s hc
    unfold parseApiResponseA
    rw [show scanWith tryCapA s = none from h]
  · have h := scanWith_bind_none "CAPTION:".data (wsThen (lazyGroup tailOkCapB)) s hc
    unfold parseApiResponseB
    rw [show scanWith tryCapB s = none from h]

/-- Witness for `parse_no_keywords_marker`: a reply with neither marker,
and a reply with a `CAPTION:` marker but no `KEYWORDS:` marker, whose
caption is the extracted (trimmed) group. -/
theorem parse_no_keywords_marker_witness :
    (parseApiResponseA "hello world".data).keywords = [] ∧
    (parseApiResponseB "hello world".data).keywords = [] ∧
    (parseApiResponseA "CAPTION: hi".data).caption =
      (if jsTrim "hi".data = [] then "No caption".data else jsTrim "hi".data) ∧
    (parseApiResponseB "CAPTION: hi".data).caption =
      (if jsTrim "hi".data = [] then "No caption generated".data
       else jsTrim "hi".data) :=
  ⟨(parse_no_keywords_marker "hello world".data (by decide)).1,
   (parse_no_keywords_marker "hello world".data (by decide)).2.1,
   (parse_no_keywords_marker "CAPTION: hi".data (by decide)).2.2.1
     "hi".data (by decide),
   (parse_no_keywords_marker "CAPTION: hi".data (by decide)).2.2.2.1
     "hi".data (by decide)⟩

/-! ## C1: character-level lemmas -/

theorem isJsSpace_of_isLineTerm (c : Char) (h : isLineTerm c = true) :
    isJsSpace c = true := by
  simp only [isLineTerm, Bool.or_eq_true, beq_iff_eq] at h
  simp only [isJsSpace, Bool.or_eq_true, Bool.and_eq_true, beq_iff_eq,
    decide_eq_true_eq]
  omega

theorem plainChar_spec {c : Char} (h : plainChar c = true) :
    isJsSpace c = false ∧ (c == '|') = false ∧ (c == ',') = false ∧
      (c == ':') = false := by
  simp only [plainChar, Bool.and_eq_true, Bool.not_eq_true'] at h
  exact ⟨h.1.1.1, h.1.1.2, h.1.2, h.2⟩

theorem plainChar_isDot {c : Char} (h : plainChar c = true) :
    isDot c = true := by
  unfold isDot
  cases hlt : isLineTerm c
  · rfl
  · have hws := isJsSpace_of_isLineTerm c hlt
    rw [(plainChar_spec h).1] at hws
    exact absurd hws (by simp)

theorem wsRun_cons_not_ws {c : Char} (r : List Char)
    (h : isJsSpace c = false) : wsRun (c :: r) = 0 := by
  simp [wsRun, h]

theorem dotRun_eq_length (l : List Char) (h : ∀ c ∈ l, isDot c = true) :
    dotRun l = l.length := by
  induction l with
  | nil => rfl
  | cons c r ih =>
    simp [dotRun, h c (List.mem_cons_self c r),
      ih (fun d hd => h d (List.mem_cons_of_mem c hd))]

theorem dropWhile_ws_eq_self (l : List Char)
    (h : ∀ c ∈ l, isJsSpace c = false) : l.dropWhile isJsSpace = l := by
  cases l with
  | nil => rfl
  | cons c r => simp [List.dropWhile_cons, h c (List.mem_cons_self c r)]

theorem jsTrim_eq_self (l : List Char) (h : ∀ c ∈ l, isJsSpace c = false) :
    jsTrim l = l := by
  unfold jsTrim
  rw [dropWhile_ws_eq_self l h,
    dropWhile_ws_eq_self l.reverse (fun c hc => h c (List.mem_reverse.mp hc)),
    List.reverse_reverse]

theorem jsTrim_ws_cons (c : Char) (l : List Char) (hc : isJsSpace c = true)
    (h : ∀ d ∈ l, isJsSpace d = false) : jsTrim (c :: l) = l := by
  unfold jsTrim
  rw [show (c :: l).dropWhile isJsSpace = l.dropWhile isJsSpace by
    simp [List.dropWhile_cons, hc]]
  rw [dropWhile_ws_eq_self l h,
    dropWhile_ws_eq_self l.reverse (fun d hd => h d (List.mem_reverse.mp hd)),
    List.reverse_reverse]

/-! ## C1: literal marker stripping and scan positioning -/

theorem strip_cap_marker (r : List Char) :
    stripLitCI "CAPTION:".data ("CAPTION: ".data ++ r) = some (' ' :: r) :=
  rfl

theorem strip_kw_marker (r : List Char) :
    stripLitCI "KEYWORDS:".data ("KEYWORDS: ".data ++ r) = some (' ' :: r) :=
  rfl

theorem scanWith_head_some (t : List Char → Option (List Char))
    (s g : List Char) (h : t s = some g) : scanWith t s = some g := by
  cases s <;> simp [scanWith, h]

theorem scanWith_step (t : List Char → Option (List Char)) (c : Char)
    (r : List Char) (h : t (c :: r) = none) :
    scanWith t (c :: r) = scanWith t r := by
  simp [scanWith, h]

theorem strip_none_of_head (p : Char) (ps : List Char) (c : Char)
    (cs : List Char) (h : ciEq p c = false) :
    stripLitCI (p :: ps) (c :: cs) = none := by
  simp [stripLitCI, h]

/-- Skipping scan positions whose head character cannot even start the
`KEYWORDS:` literal. -/
theorem scan_skip_noK (k : List Char → Option (List Char)) :
    ∀ (pre s₀ : List Char), (∀ c ∈ pre, ciEq 'K' c = false) →
      scanWith (fun l => (stripLitCI "KEYWORDS:".data l).bind k) (pre ++ s₀) =
        scanWith (fun l => (stripLitCI "KEYWORDS:".data l).bind k) s₀ := by
  intro pre
  induction pre with
  | nil => intro s₀ _; rfl
  | cons c pre' ih =>
    intro s₀ h
    have hc := h c (List.mem_cons_self c pre')
    have hstrip : stripLitCI "KEYWORDS:".data (c :: (pre' ++ s₀)) = none := by
      rw [show "KEYWORDS:".data = 'K' :: "EYWORDS:".data from rfl]
      exact strip_none_of_head _ _ _ _ hc
    rw [List.cons_append, scanWith_step _ _ _ (by simp [hstrip])]
    exact ih s₀ (fun d hd => h d (List.mem_cons_of_mem c hd))

theorem ciEq_colon {c : Char} (h : ciEq ':' c = true) : c = ':' := by
  simp only [ciEq, beq_iff_eq] at h
  rw [show lowerAscii ':' = 58 from by decide] at h
  unfold lowerAscii at h
  split at h
  · omega
  · have h2 : c.toNat = 58 := h.symm
    have h3 := Char.ofNat_toNat c
    rw [h2] at h3
    exact h3.symm.trans (by decide)

/-- A successful case-insensitive match of a literal ending in `:` forces a
`:` in the input at the literal's last position. -/
theorem strip_some_colon_last :
    ∀ (lit s r : List Char), lit.getLast? = some ':' →
      stripLitCI lit s = some r → s[lit.length - 1]? = some ':' := by
  intro lit
  induction lit with
  | nil => intro s r hlast _; simp at hlast
  | cons p ps ih =>
    intro s r hlast hstrip
    cases s with
    | nil => simp [stripLitCI] at hstrip
    | cons c cs =>
      simp only [stripLitCI] at hstrip
      by_cases hci : ciEq p c = true
      · rw [if_pos hci] at hstrip
        cases ps with
        | nil =>
          have hp : p = ':' := by simpa using hlast
          subst hp
          have hcc := ciEq_colon hci
          subst hcc
          simp
        | cons q qs =>
          have hlast' : (q :: qs).getLast? = some ':' := by
            simpa [List.getLast?_cons_cons] using hlast
          have hrec := ih cs r hlast' hstrip
          simp only [List.length_cons] at hrec ⊢
          rw [show qs.length + 1 + 1 - 1 = qs.length + 1 from rfl]
          rw [List.getElem?_cons_succ]
          simpa using hrec
      · rw [if_neg hci] at hstrip
        exact absurd hstrip (by simp)

theorem mem_of_getElem?_eq {α : Type} (l : List α) (i : Nat) (a : α)
    (h : l[i]? = some a) : a ∈ l := by
  obtain ⟨hlt, he⟩ := List.getElem?_eq_some.mp h
  exact he ▸ List.getElem_mem hlt

/-- Position 8 of a plain-word region followed by a colon-free window can
never hold the `:` that a `KEYWORDS:` match would require there. -/
theorem no_colon_at8 (X s₀ : List Char)
    (hX : ∀ ch ∈ X, plainChar ch = true)
    (hs : ∀ d ∈ s₀.take 9, (d == ':') = false) :
    ¬ (X ++ s₀)[8]? = some ':' := by
  intro h
  have h9 : ((X ++ s₀).take 9)[8]? = (X ++ s₀)[8]? := by
    rw [List.getElem?_take]
    simp
  rw [← h9] at h
  have hmem : ':' ∈ (X ++ s₀).take 9 := mem_of_getElem?_eq _ _ _ h
  rw [List.take_append_eq_append_take] at hmem
  rcases List.mem_append.mp hmem with hmm | hmm
  · have hx : ':' ∈ X := List.take_subset _ _ hmm
    have := (plainChar_spec (hX ':' hx)).2.2.2
    exact absurd this (by simp)
  · have hsub : s₀.take (9 - X.length) ⊆ s₀.take 9 := by
      intro d hd
      have heq : s₀.take (9 - X.length) = (s₀.take 9).take (9 - X.length) := by
        rw [List.take_take]
        congr 1
        omega
      rw [heq] at hd
      exact List.take_subset _ _ hd
    have := hs ':' (hsub hmm)
    exact absurd this (by simp)

/-- Skipping scan positions inside the plain-word region `X`: a `KEYWORDS:`
match starting there would need a `:` at offset 8, which the plain
characters and the colon-free 9-character window after `X` rule out. -/
theorem scan_skip_plain (k : List Char → Option (List Char)) :
    ∀ (X s₀ : List Char), (∀ ch ∈ X, plainChar ch = true) →
      (∀ d ∈ s₀.take 9, (d == ':') = false) →
      scanWith (fun l => (stripLitCI "KEYWORDS:".data l).bind k) (X ++ s₀) =
        scanWith (fun l => (stripLitCI "KEYWORDS:".data l).bind k) s₀ := by
  intro X
  induction X with
  | nil => intro s₀ _ _; rfl
  | cons x xs ih =>
    intro s₀ hX hs
    have hfail : stripLitCI "KEYWORDS:".data ((x :: xs) ++ s₀) = none := by
      cases hstrip : stripLitCI "KEYWORDS:".data ((x :: xs) ++ s₀) with
      | none => rfl
      | some r =>
        exfalso
        have hcol := strip_some_colon_last "KEYWORDS:".data _ r (by decide)
          hstrip
        rw [show "KEYWORDS:".data.length - 1 = 8 from by decide] at hcol
        exact no_colon_at8 (x :: xs) s₀ hX hs hcol
    have hfail' : stripLitCI "KEYWORDS:".data (x :: (xs ++ s₀)) = none := by
      rw [← List.cons_append]
      exact hfail
    rw [List.cons_append,
      scanWith_step _ _ _ (by
        show (stripLitCI "KEYWORDS:".data (x :: (xs ++ s₀))).bind k = none
        rw [hfail']
        rfl)]
    exact ih s₀ (fun d hd => hX d (List.mem_cons_of_mem x hd)) hs

/-! ## C1: lazy group and whitespace backtracking -/

/-- The lazy `(.+?)` stops exactly at the separator: no proper prefix of
`X` satisfies the context test, and all of `X` does. -/
theorem lazyGroup_append (tailOk : List Char → Bool) :
    ∀ (X sep : List Char), X ≠ [] → (∀ c ∈ X, isDot c = true) →
      (∀ X₂, X₂ <:+ X → X₂ ≠ [] → tailOk (X₂ ++ sep) = false) →
      tailOk sep = true →
      lazyGroup tailOk (X ++ sep) = some X := by
  intro X
  induction X with
  | nil => intro sep h _ _ _; exact absurd rfl h
  | cons x xs ih =>
    intro sep _ hdot hmid htail
    have hdx : isDot x = true := hdot x (List.mem_cons_self x xs)
    cases xs with
    | nil => simp [lazyGroup, hdx, htail]
    | cons y ys =>
      have hmidfalse : tailOk ((y :: ys) ++ sep) = false :=
        hmid (y :: ys) (List.suffix_cons x (y :: ys)) (by simp)
      have hrec := ih sep (by simp)
        (fun d hd => hdot d (List.mem_cons_of_mem x hd))
        (fun q hsuf hne =>
          hmid q (hsuf.trans (List.suffix_cons x (y :: ys))) hne)
        htail
      rw [List.cons_append]
      generalize (y :: ys) ++ sep = R at hmidfalse hrec ⊢
      simp [lazyGroup, hdx, hmidfalse, hrec]

theorem tailOkCapA_plain_cons (c : Char) (r : List Char)
    (h : plainChar c = true) : tailOkCapA (c :: r) = false := by
  obtain ⟨hws, hbar, _, _⟩ := plainChar_spec h
  simp [tailOkCapA, wsRun_cons_not_ws r hws, headIsBar, hbar]

theorem tailOkCapB_plain_cons (c : Char) (r : List Char)
    (h : plainChar c = true) : tailOkCapB (c :: r) = false := by
  obtain ⟨hws, hbar, _, _⟩ := plainChar_spec h
  simp [tailOkCapB, wsRun_cons_not_ws r hws, headIsBar, hbar]

theorem tailOkKwB_plain_head (c : Char) (r : List Char)
    (h : isJsSpace c = false) : tailOkKwB (c :: r) = false := by
  simp [tailOkKwB, List.all_cons, h]

theorem tailOkCapA_sep (r : List Char) : tailOkCapA (' ' :: '|' :: r) = true := by
  have h1 : isJsSpace ' ' = true := by decide
  have h2 : isJsSpace '|' = false := by decide
  simp [tailOkCapA, wsRun, h1, h2, headIsBar]

theorem tailOkCapB_sep (r : List Char) : tailOkCapB (' ' :: '|' :: r) = true := by
  have h1 : isJsSpace ' ' = true := by decide
  have h2 : isJsSpace '|' = false := by decide
  simp [tailOkCapB, wsRun, h1, h2, headIsBar]

/-- When the whole whitespace run before the group is one space, greedy
`\s*` consumes it and the group match at the remainder decides. -/
theorem wsThen_space_cons (f : List Char → Option (List Char))
    (u g : List Char) (hu : wsRun u = 0) (h : f u = some g) :
    wsThen f (' ' :: u) = some g := by
  unfold wsThen
  rw [show wsRun (' ' :: u) = 1 by
    simp [wsRun, hu, (by decide : isJsSpace ' ' = true)]]
  simp [goWs, h]

/-! ## C1: the four regexes on a well-formed reply -/

theorem tryCapA_marker (X rest : List Char) (hX : X ≠ [])
    (hXp : ∀ c ∈ X, plainChar c = true) :
    tryCapA ("CAPTION: ".data ++ (X ++ (' ' :: '|' :: rest))) = some X := by
  unfold tryCapA
  rw [strip_cap_marker]
  show wsThen (lazyGroup tailOkCapA) (' ' :: (X ++ (' ' :: '|' :: rest))) =
    some X
  apply wsThen_space_cons
  · cases X with
    | nil => exact absurd rfl hX
    | cons x xs =>
      rw [List.cons_append]
      exact wsRun_cons_not_ws _
        (plainChar_spec (hXp x (List.mem_cons_self x xs))).1
  · refine lazyGroup_append tailOkCapA X (' ' :: '|' :: rest) hX
      (fun d hd => plainChar_isDot (hXp d hd)) (fun q hsuf hne => ?_)
      (tailOkCapA_sep rest)
    cases q with
    | nil => exact absurd rfl hne
    | cons y ys =>
      rw [List.cons_append]
      exact tailOkCapA_plain_cons y _ (hXp y (hsuf.subset (List.mem_cons_self y ys)))

theorem tryCapB_marker (X rest : List Char) (hX : X ≠ [])
    (hXp : ∀ c ∈ X, plainChar c = true) :
    tryCapB ("CAPTION: ".data ++ (X ++ (' ' :: '|' :: rest))) = some X := by
  unfold tryCapB
  rw [strip_cap_marker]
  show wsThen (lazyGroup tailOkCapB) (' ' :: (X ++ (' ' :: '|' :: rest))) =
    some X
  apply wsThen_space_cons
  · cases X with
    | nil => exact absurd rfl hX
    | cons x xs =>
      rw [List.cons_append]
      exact wsRun_cons_not_ws _
        (plainChar_spec (hXp x (List.mem_cons_self x xs))).1
  · refine lazyGroup_append tailOkCapB X (' ' :: '|' :: rest) hX
      (fun d hd => plainChar_isDot (hXp d hd)) (fun q hsuf hne => ?_)
      (tailOkCapB_sep rest)
    cases q with
    | nil => exact absurd rfl hne
    | cons y ys =>
      rw [List.cons_append]
      exact tailOkCapB_plain_cons y _ (hXp y (hsuf.subset (List.mem_cons_self y ys)))

theorem tryKwA_marker (K : List Char) (hK : K ≠ [])
    (hdot : ∀ c ∈ K, isDot c = true) (hws : wsRun K = 0) :
    tryKwA ("KEYWORDS: ".data ++ K) = some K := by
  unfold tryKwA
  rw [strip_kw_marker]
  show wsThen greedyDotGroup (' ' :: K) = some K
  apply wsThen_space_cons _ _ _ hws
  unfold greedyDotGroup
  rw [dotRun_eq_length K hdot]
  have hlen : K.length ≠ 0 := by simpa using hK
  simp [hlen]

theorem mem_of_getLast?_eq {α : Type} (l : List α) (a : α)
    (h : l.getLast? = some a) : a ∈ l := by
  have hne : l ≠ [] := by
    intro h2
    subst h2
    simp at h
  have hg := List.getLast?_eq_getLast l hne
  rw [hg] at h
  have he := Option.some_inj.mp h
  exact he ▸ List.getLast_mem hne

theorem tryKwB_marker (K : List Char) (hK : K ≠ [])
    (hdot : ∀ c ∈ K, isDot c = true) (hws : wsRun K = 0)
    (hmid : ∀ q, q <:+ K → q ≠ [] → tailOkKwB q = false) :
    tryKwB ("KEYWORDS: ".data ++ K) = some K := by
  unfold tryKwB
  rw [strip_kw_marker]
  show wsThen (lazyGroup tailOkKwB) (' ' :: K) = some K
  apply wsThen_space_cons _ _ _ hws
  have h := lazyGroup_append tailOkKwB K [] hK hdot
    (fun q hsuf hne => by
      rw [List.append_nil]
      exact hmid q hsuf hne)
    (by rfl)
  simpa using h

/-! ## C1: splitting the keyword group -/

theorem splitGo_comma (rest acc : List Char) :
    splitGo false (',' :: rest) acc = acc :: splitGo true rest [] := by
  simp [splitGo]

theorem splitGo_skip_ws (c : Char) (rest acc : List Char)
    (h : isJsSpace c = true) :
    splitGo true (c :: rest) acc = splitGo true rest acc := by
  simp [splitGo, h]

theorem splitGo_true_false (c : Char) (r acc : List Char)
    (h : isJsSpace c = false) :
    splitGo true (c :: r) acc = splitGo false (c :: r) acc := by
  simp [splitGo, h]

/-- Plain characters are accumulated into the current piece unchanged. -/
theorem splitGo_plain_run :
    ∀ (w s acc : List Char), (∀ c ∈ w, plainChar c = true) →
      splitGo false (w ++ s) acc = splitGo false s (acc ++ w) := by
  intro w
  induction w with
  | nil => intro s acc _; simp
  | cons c w' ih =>
    intro s acc h
    obtain ⟨hws, _, hcomma, _⟩ := plainChar_spec (h c (List.mem_cons_self c w'))
    rw [List.cons_append]
    rw [show splitGo false (c :: (w' ++ s)) acc =
        splitGo false (w' ++ s) (acc ++ [c]) by
      simp [splitGo, hws, beq_eq_false_iff_ne.mp hcomma]]
    rw [ih s (acc ++ [c]) (fun d hd => h d (List.mem_cons_of_mem c hd))]
    congr 1
    simp

/-- Variant A's `split(/\s*,\s*/)` on the keyword group of a well-formed
reply returns exactly the three keywords. -/
theorem splitWsCommaWs_three (a b c : List Char)
    (hap : ∀ ch ∈ a, plainChar ch = true)
    (hb : b ≠ []) (hbp : ∀ ch ∈ b, plainChar ch = true)
    (hc : c ≠ []) (hcp : ∀ ch ∈ c, plainChar ch = true) :
    splitWsCommaWs (a ++ (',' :: ' ' :: (b ++ (',' :: ' ' :: c)))) =
      [a, b, c] := by
  unfold splitWsCommaWs
  rw [splitGo_plain_run a _ [] hap]
  rw [splitGo_comma, List.nil_append]
  rw [splitGo_skip_ws ' ' _ [] (by decide)]
  cases b with
  | nil => exact absurd rfl hb
  | cons b0 b' =>
    rw [List.cons_append,
      splitGo_true_false b0 _ []
        (plainChar_spec (hbp b0 (List.mem_cons_self b0 b'))).1,
      ← List.cons_append,
      splitGo_plain_run (b0 :: b') _ [] hbp]
    rw [splitGo_comma, List.nil_append]
    rw [splitGo_skip_ws ' ' _ [] (by decide)]
    cases c with
    | nil => exact absurd rfl hc
    | cons c0 c' =>
      rw [splitGo_true_false c0 _ []
        (plainChar_spec (hcp c0 (List.mem_cons_self c0 c'))).1]
      rw [show (c0 :: c') = (c0 :: c') ++ [] from by simp,
        splitGo_plain_run (c0 :: c') [] [] hcp]
      simp [splitGo]

theorem splitChar_append_comma :
    ∀ (w rest : List Char), (∀ ch ∈ w, (ch == ',') = false) →
      splitChar ',' (w ++ ',' :: rest) = w :: splitChar ',' rest := by
  intro w
  induction w with
  | nil => intro rest _; simp [splitChar]
  | cons x w' ih =>
    intro rest hw
    have hx : ¬ (x = ',') := by
      simpa using hw x (List.mem_cons_self x w')
    rw [List.cons_append]
    rw [show splitChar ',' (x :: (w' ++ ',' :: rest)) =
        match splitChar ',' (w' ++ ',' :: rest) with
        | [] => [[x]]
        | p :: ps => (x :: p) :: ps by simp [splitChar, hx]]
    rw [ih rest (fun d hd => hw d (List.mem_cons_of_mem x hd))]

theorem splitChar_no_comma :
    ∀ w : List Char, (∀ ch ∈ w, (ch == ',') = false) →
      splitChar ',' w = [w] := by
  intro w
  induction w with
  | nil => intro _; rfl
  | cons x w' ih =>
    intro hw
    have hx : ¬ (x = ',') := by
      simpa using hw x (List.mem_cons_self x w')
    rw [show splitChar ',' (x :: w') =
        match splitChar ',' w' with
        | [] => [[x]]
        | p :: ps => (x :: p) :: ps by simp [splitChar, hx]]
    rw [ih (fun d hd => hw d (List.mem_cons_of_mem x hd))]

/-- Variant B's `split(',')`, piecewise trim, and empty filter on the
keyword group of a well-formed reply returns exactly the three keywords. -/
theorem splitB_three (a b c : List Char)
    (ha : a ≠ []) (hap : ∀ ch ∈ a, plainChar ch = true)
    (hb : b ≠ []) (hbp : ∀ ch ∈ b, plainChar ch = true)
    (hc : c ≠ []) (hcp : ∀ ch ∈ c, plainChar ch = true) :
    ((splitChar ',' (a ++ (',' :: ' ' :: (b ++ (',' :: ' ' :: c))))).map
        jsTrim).filter (fun k => !k.isEmpty) = [a, b, c] := by
  rw [splitChar_append_comma a _ (fun d hd => (plainChar_spec (hap d hd)).2.2.1)]
  rw [show (' ' :: (b ++ (',' :: ' ' :: c))) =
      ((' ' :: b) ++ (',' :: (' ' :: c))) from by simp]
  rw [splitChar_append_comma (' ' :: b) _ (fun d hd => by
    rcases List.mem_cons.mp hd with rfl | hdb
    · decide
    · exact (plainChar_spec (hbp d hdb)).2.2.1)]
  rw [splitChar_no_comma (' ' :: c) (fun d hd => by
    rcases List.mem_cons.mp hd with rfl | hdc
    · decide
    · exact (plainChar_spec (hcp d hdc)).2.2.1)]
  rw [show ([a, ' ' :: b, ' ' :: c].map jsTrim) = [a, b, c] from by
    simp only [List.map]
    rw [jsTrim_eq_self a (fun d hd => (plainChar_spec (hap d hd)).1),
      jsTrim_ws_cons ' ' b (by decide) (fun d hd => (plainChar_spec (hbp d hd)).1),
      jsTrim_ws_cons ' ' c (by decide) (fun d hd => (plainChar_spec (hcp d hd)).1)]]
  have hae : a.isEmpty = false := by
    cases a
    · exact absurd rfl ha
    · rfl
  have hbe : b.isEmpty = false := by
    cases b
    · exact absurd rfl hb
    · rfl
  have hce : c.isEmpty = false := by
    cases c
    · exact absurd rfl hc
    · rfl
  simp [List.filter, hae, hbe, hce]

/-! ## C1: assembling the scans on a well-formed reply -/

theorem getLast?_cons_of_ne_nil {α : Type} (x : α) (l : List α)
    (h : l ≠ []) : (x :: l).getLast? = l.getLast? := by
  cases l with
  | nil => exact absurd rfl h
  | cons y ys => exact List.getLast?_cons_cons

theorem kwTail_ne_nil (a b c : List Char) :
    a ++ (',' :: ' ' :: (b ++ (',' :: ' ' :: c))) ≠ [] := by
  simp

theorem kwTail_dot (a b c : List Char)
    (hap : ∀ ch ∈ a, plainChar ch = true)
    (hbp : ∀ ch ∈ b, plainChar ch = true)
    (hcp : ∀ ch ∈ c, plainChar ch = true) :
    ∀ ch ∈ a ++ (',' :: ' ' :: (b ++ (',' :: ' ' :: c))), isDot ch = true := by
  intro ch hch
  rcases List.mem_append.mp hch with hin | hin
  · exact plainChar_isDot (hap ch hin)
  · rcases List.mem_cons.mp hin with rfl | hin
    · decide
    · rcases List.mem_cons.mp hin with rfl | hin
      · decide
      · rcases List.mem_append.mp hin with hin | hin
        · exact plainChar_isDot (hbp ch hin)
        · rcases List.mem_cons.mp hin with rfl | hin
          · decide
          · rcases List.mem_cons.mp hin with rfl | hin
            · decide
            · exact plainChar_isDot (hcp ch hin)

theorem kwTail_wsRun (a b c : List Char) (ha : a ≠ [])
    (hap : ∀ ch ∈ a, plainChar ch = true) :
    wsRun (a ++ (',' :: ' ' :: (b ++ (',' :: ' ' :: c)))) = 0 := by
  cases a with
  | nil => exact absurd rfl ha
  | cons a0 a' =>
    rw [List.cons_append]
    exact wsRun_cons_not_ws _
      (plainChar_spec (hap a0 (List.mem_cons_self a0 a'))).1

theorem kwTail_getLast (a b c : List Char) (hc : c ≠ []) :
    (a ++ (',' :: ' ' :: (b ++ (',' :: ' ' :: c)))).getLast? =
      c.getLast? := by
  rw [List.getLast?_append_of_ne_nil _ (by simp)]
  rw [getLast?_cons_of_ne_nil ',' _ (by simp)]
  rw [getLast?_cons_of_ne_nil ' ' _ (by simp)]
  rw [List.getLast?_append_of_ne_nil _ (by simp)]
  rw [getLast?_cons_of_ne_nil ',' _ (by simp)]
  rw [getLast?_cons_of_ne_nil ' ' _ hc]

/-- No nonempty suffix of the keyword group is all-whitespace: its last
character is a plain character of the last keyword. -/
theorem kwTail_mid (a b c : List Char) (hc : c ≠ [])
    (hcp : ∀ ch ∈ c, plainChar ch = true) :
    ∀ q, q <:+ a ++ (',' :: ' ' :: (b ++ (',' :: ' ' :: c))) → q ≠ [] →
      tailOkKwB q = false := by
  intro q hsuf hne
  cases htk : tailOkKwB q with
  | false => rfl
  | true =>
    exfalso
    obtain ⟨d, hd⟩ : ∃ d, c.getLast? = some d := by
      cases hcg : c.getLast? with
      | none =>
        exact absurd (by simpa using List.getLast?_eq_none_iff.mp hcg) hc
      | some d => exact ⟨d, rfl⟩
    have hdc : d ∈ c := mem_of_getLast?_eq c d hd
    have hKlast : (a ++ (',' :: ' ' :: (b ++ (',' :: ' ' :: c)))).getLast? =
        some d := by rw [kwTail_getLast a b c hc, hd]
    obtain ⟨p, hp⟩ := hsuf
    rw [← hp, List.getLast?_append_of_ne_nil _ hne] at hKlast
    have hdq : d ∈ q := mem_of_getLast?_eq q d hKlast
    have hws := List.all_eq_true.mp htk d hdq
    rw [(plainChar_spec (hcp d hdc)).1] at hws
    exact absurd hws (by simp)

theorem scanCapA_wellFormed (X a b c : List Char) (hX : X ≠ [])
    (hXp : ∀ ch ∈ X, plainChar ch = true) :
    scanWith tryCapA (wellFormedReply X a b c) = some X := by
  unfold wellFormedReply
  apply scanWith_head_some
  rw [show " | KEYWORDS: ".data ++
      (a ++ (',' :: ' ' :: (b ++ (',' :: ' ' :: c)))) =
      ' ' :: '|' :: (" KEYWORDS: ".data ++
        (a ++ (',' :: ' ' :: (b ++ (',' :: ' ' :: c))))) from rfl]
  exact tryCapA_marker X _ hX hXp

theorem scanCapB_wellFormed (X a b c : List Char) (hX : X ≠ [])
    (hXp : ∀ ch ∈ X, plainChar ch = true) :
    scanWith tryCapB (wellFormedReply X a b c) = some X := by
  unfold wellFormedReply
  apply scanWith_head_some
  rw [show " | KEYWORDS: ".data ++
      (a ++ (',' :: ' ' :: (b ++ (',' :: ' ' :: c)))) =
      ' ' :: '|' :: (" KEYWORDS: ".data ++
        (a ++ (',' :: ' ' :: (b ++ (',' :: ' ' :: c))))) from rfl]
  exact tryCapB_marker X _ hX hXp

theorem scanKwA_wellFormed (X a b c : List Char)
    (hXp : ∀ ch ∈ X, plainChar ch = true)
    (ha : a ≠ []) (hap : ∀ ch ∈ a, plainChar ch = true)
    (hbp : ∀ ch ∈ b, plainChar ch = true)
    (hcp : ∀ ch ∈ c, plainChar ch = true) :
    scanWith tryKwA (wellFormedReply X a b c) =
      some (a ++ (',' :: ' ' :: (b ++ (',' :: ' ' :: c)))) := by
  have hwin : ∀ d ∈ (" | KEYWORDS: ".data ++
      (a ++ (',' :: ' ' :: (b ++ (',' :: ' ' :: c))))).take 9,
      (d == ':') = false := by
    rw [List.take_append_of_le_length (by decide)]
    decide
  show scanWith
    (fun l => (stripLitCI "KEYWORDS:".data l).bind (wsThen greedyDotGroup))
    (wellFormedReply X a b c) = _
  unfold wellFormedReply
  rw [scan_skip_noK _ "CAPTION: ".data _ (by decide)]
  rw [scan_skip_plain _ X _ hXp hwin]
  rw [show " | KEYWORDS: ".data ++
      (a ++ (',' :: ' ' :: (b ++ (',' :: ' ' :: c)))) =
      " | ".data ++ ("KEYWORDS: ".data ++
        (a ++ (',' :: ' ' :: (b ++ (',' :: ' ' :: c))))) from rfl]
  rw [scan_skip_noK _ " | ".data _ (by decide)]
  apply scanWith_head_some
  exact tryKwA_marker _ (kwTail_ne_nil a b c) (kwTail_dot a b c hap hbp hcp)
    (kwTail_wsRun a b c ha hap)

theorem scanKwB_wellFormed (X a b c : List Char)
    (hXp : ∀ ch ∈ X, plainChar ch = true)
    (ha : a ≠ []) (hap : ∀ ch ∈ a, plainChar ch = true)
    (hbp : ∀ ch ∈ b, plainChar ch = true)
    (hc : c ≠ []) (hcp : ∀ ch ∈ c, plainChar ch = true) :
    scanWith tryKwB (wellFormedReply X a b c) =
      some (a ++ (',' :: ' ' :: (b ++ (',' :: ' ' :: c)))) := by
  have hwin : ∀ d ∈ (" | KEYWORDS: ".data ++
      (a ++ (',' :: ' ' :: (b ++ (',' :: ' ' :: c))))).take 9,
      (d == ':') = false := by
    rw [List.take_append_of_le_length (by decide)]
    decide
  show scanWith
    (fun l => (stripLitCI "KEYWORDS:".data l).bind (wsThen (lazyGroup tailOkKwB)))
    (wellFormedReply X a b c) = _
  unfold wellFormedReply
  rw [scan_skip_noK _ "CAPTION: ".data _ (by decide)]
  rw [scan_skip_plain _ X _ hXp hwin]
  rw [show " | KEYWORDS: ".data ++
      (a ++ (',' :: ' ' :: (b ++ (',' :: ' ' :: c)))) =
      " | ".data ++ ("KEYWORDS: ".data ++
        (a ++ (',' :: ' ' :: (b ++ (',' :: ' ' :: c))))) from rfl]
  rw [scan_skip_noK _ " | ".data _ (by decide)]
  apply scanWith_head_some
  exact tryKwB_marker _ (kwTail_ne_nil a b c) (kwTail_dot a b c hap hbp hcp)
    (kwTail_wsRun a b c ha hap) (kwTail_mid a b c hc hcp)

/-- C1: on a model reply exactly of the form `CAPTION: X | KEYWORDS: a, b, c`
(with `X`, `a`, `b`, `c` nonempty words over the plain alphabet), both
browser variants of `parseApiResponse` return caption `X` and keyword list
`[a, b, c]`. -/
theorem parse_wellformed_reply (X a b c : List Char)
    (hX : X ≠ []) (hXp : ∀ ch ∈ X, plainChar ch = true)
    (ha : a ≠ []) (hap : ∀ ch ∈ a, plainChar ch = true)
    (hb : b ≠ []) (hbp : ∀ ch ∈ b, plainChar ch = true)
    (hc : c ≠ []) (hcp : ∀ ch ∈ c, plainChar ch = true) :
    parseApiResponseA (wellFormedReply X a b c) = ⟨X, [a, b, c]⟩ ∧
    parseApiResponseB (wellFormedReply X a b c) = ⟨X, [a, b, c]⟩ := by
  have hXtrim : jsTrim X = X :=
    jsTrim_eq_self X (fun d hd => (plainChar_spec (hXp d hd)).1)
  constructor
  · unfold parseApiResponseA
    rw [scanCapA_wellFormed X a b c hX hXp,
      scanKwA_wellFormed X a b c hXp ha hap hbp hcp]
    simp only [hXtrim]
    rw [splitWsCommaWs_three a b c hap hb hbp hc hcp]
    simp [hX]
  · unfold parseApiResponseB
    rw [scanCapB_wellFormed X a b c hX hXp,
      scanKwB_wellFormed X a b c hXp ha hap hbp hc hcp]
    simp only [hXtrim]
    rw [splitB_three a b c ha hap hb hbp hc hcp]
    simp [hX]

/-- Witness for `parse_wellformed_reply` at a concrete well-formed reply. -/
theorem parse_wellformed_reply_witness :
    parseApiResponseA (wellFormedReply "X".data "a".data "b".data "c".data) =
      ⟨"X".data, ["a".data, "b".data, "c".data]⟩ ∧
    parseApiResponseB (wellFormedReply "X".data "a".data "b".data "c".data) =
      ⟨"X".data, ["a".data, "b".data, "c".data]⟩ :=
  parse_wellformed_reply "X".data "a".data "b".data "c".data
    (by decide) (by decide) (by decide) (by decide)
    (by decide) (by decide) (by decide) (by decide)

end ImageIptc
